import Mathlib

/-!
Shallow embedding of the resource-name extractor `get_resource` found in the
repository's notebooks.  The Python source is:

    out = captured_io.stdout
    matches = re.search(r"^(.+)\s+created", out)
    if matches is not None:
        return matches.group(1)
    else:
        raise Exception(f"Cannot get resource as its creation failed: {out}")

The checkpoint notebook contains a second copy differing only in the error
message, which additionally ends with ". It may already exist.".

Python `re` semantics of the pattern, which the definitions below encode:
* the pattern is compiled without `re.MULTILINE`, so the anchor matches only
  at index 0 of the text; `re.search` therefore succeeds only with a match
  starting at the very first character;
* `.` matches any character except a newline, so the greedy group `(.+)` is
  a non-empty run of non-newline characters starting at index 0 — a prefix
  of the first line of the text;
* `\s` matches the whitespace characters (ASCII and Unicode) listed in
  `isPySpace` below;
* backtracking tries the longest group first; for a group of length `k` the
  literal "created" can only match immediately after the maximal whitespace
  run starting at index `k` (it starts with a non-whitespace character), so
  a match with group length `k` exists iff the character at index `k` is
  whitespace and the text after the maximal whitespace run starting there
  begins with "created"; `re.search` returns the largest such `k`.

Strings are modelled as `List Char` and the raising function as
`Except (List Char) (List Char)` (error message on the left).
-/

/-- The set of characters matched by Python's `\s` for `str` patterns. -/
def isPySpace (c : Char) : Bool :=
  c = ' ' || c = '\t' || c = '\n' || c = '\r' || c = '\x0b' || c = '\x0c' ||
  c = '\x1c' || c = '\x1d' || c = '\x1e' || c = '\x1f' || c = '\x85' || c = '\xa0' ||
  c = '\u1680' || c = '\u2000' || c = '\u2001' || c = '\u2002' || c = '\u2003' ||
  c = '\u2004' || c = '\u2005' || c = '\u2006' || c = '\u2007' || c = '\u2008' ||
  c = '\u2009' || c = '\u200a' || c = '\u2028' || c = '\u2029' || c = '\u202f' ||
  c = '\u205f' || c = '\u3000' 

/-- The literal token `created` of the pattern. -/
def createdTok : List Char := "created".toList

/-- The error-message text preceding the interpolated output in the
Spark/Horovod notebook's copy of `get_resource`. -/
def msgPrefix : List Char := "Cannot get resource as its creation failed: ".toList

/-- The extra error-message text appended by the checkpoint notebook's copy. -/
def alreadySuffix : List Char := ". It may already exist.".toList

/-- Does the tail `\s+created` of the pattern match at index `k` of `s`?
`\s+` must take the maximal whitespace run starting at `k` (the literal
`created` begins with a non-whitespace character, so backtracking inside the
run cannot help), and `created` must follow it. -/
def matchesAt (s : List Char) (k : Nat) : Bool :=
  match s.drop k with
  | [] => false
  | c :: r => isPySpace c && createdTok.isPrefixOf (r.dropWhile isPySpace)

/-- Greedy backtracking over the group length: try `k, k-1, ..., 1` and
return the first (largest) length at which `\s+created` matches. -/
def findGreedy (s : List Char) : Nat → Option Nat
  | 0 => none
  | k + 1 => if matchesAt s (k + 1) then some (k + 1) else findGreedy s k

/-- Length of the first line of `s`: the largest length a group matched by
`(.+)` anchored at index 0 can have, since `.` excludes the newline. -/
def firstLineLen (s : List Char) : Nat := (s.takeWhile (fun c => c ≠ '\n')).length

/-- Model of `re.search(r"^(.+)\s+created", s)`: the group of the match, if any. -/
def searchCreated (s : List Char) : Option (List Char) :=
  (findGreedy s (firstLineLen s)).map (fun k => s.take k)

/-- The Spark/Horovod notebook's `get_resource`, on the captured stdout text. -/
def get_resource (out : List Char) : Except (List Char) (List Char) :=
  match searchCreated out with
  | some name => Except.ok name
  | none => Except.error (msgPrefix ++ out)

/-- The TensorFlow checkpoint notebook's copy of `get_resource`; it differs
from `get_resource` only in the text of the raised error message. -/
def get_resource_ckpt (out : List Char) : Except (List Char) (List Char) :=
  match searchCreated out with
  | some name => Except.ok name
  | none => Except.error (msgPrefix ++ out ++ alreadySuffix)

/-- The lines of a text: segments separated by the newline character. -/
def linesOf (s : List Char) : List (List Char) := s.splitOn '\n'

/-- Does a single line, taken as a text of its own, match the pattern
anchored at its start? -/
def lineMatches (l : List Char) : Bool := (searchCreated l).isSome

/-! ### Helper lemmas about the embedding -/

theorem createdTok_cons : createdTok = 'c' :: 'r' :: 'e' :: 'a' :: 't' :: 'e' :: 'd' :: [] := rfl

theorem matchesAt_eq_of_drop_cons {s : List Char} {k : Nat} {c : Char} {r : List Char}
    (h : s.drop k = c :: r) :
    matchesAt s k = (isPySpace c && createdTok.isPrefixOf (r.dropWhile isPySpace)) := by
  unfold matchesAt
  rw [h]

theorem matchesAt_eq_false_of_drop_nil {s : List Char} {k : Nat} (h : s.drop k = []) :
    matchesAt s k = false := by
  unfold matchesAt
  rw [h]

theorem findGreedy_sound {s : List Char} :
    ∀ {b k : Nat}, findGreedy s b = some k → 1 ≤ k ∧ k ≤ b ∧ matchesAt s k = true := by
  intro b
  induction b with
  | zero => intro k h; simp [findGreedy] at h
  | succ b ih =>
    intro k h
    rw [findGreedy] at h
    by_cases hm : matchesAt s (b + 1) = true
    · rw [if_pos hm] at h
      injection h with h
      subst h
      exact ⟨by omega, by omega, hm⟩
    · rw [if_neg hm] at h
      obtain ⟨h1, h2, h3⟩ := ih h
      exact ⟨h1, by omega, h3⟩

theorem findGreedy_eq_some {s : List Char} :
    ∀ {b n : Nat}, 1 ≤ n → n ≤ b → matchesAt s n = true →
      (∀ j, n < j → j ≤ b → matchesAt s j = false) → findGreedy s b = some n := by
  intro b
  induction b with
  | zero => intro n h1 h2 _ _; omega
  | succ b ih =>
    intro n h1 h2 hm hub
    by_cases hn : n = b + 1
    · subst hn
      rw [findGreedy, if_pos hm]
    · have hfalse : matchesAt s (b + 1) = false := hub (b + 1) (by omega) (by omega)
      rw [findGreedy, if_neg (by simp [hfalse])]
      exact ih h1 (by omega) hm (fun j hj1 hj2 => hub j hj1 (by omega))

theorem findGreedy_eq_none {s : List Char} :
    ∀ {b : Nat}, (∀ j, 1 ≤ j → j ≤ b → matchesAt s j = false) → findGreedy s b = none := by
  intro b
  induction b with
  | zero => intro _; rfl
  | succ b ih =>
    intro hub
    rw [findGreedy, if_neg (by simp [hub (b + 1) (by omega) (by omega)])]
    exact ih (fun j hj1 hj2 => hub j hj1 (by omega))

theorem takeWhile_append_all {p : Char → Bool} {a : List Char} (b : List Char)
    (h : ∀ c ∈ a, p c = true) : (a ++ b).takeWhile p = a ++ b.takeWhile p := by
  induction a with
  | nil => simp
  | cons c a ih =>
    have hc : p c = true := h c (List.mem_cons_self c a)
    have ha : ∀ d ∈ a, p d = true := fun d hd => h d (List.mem_cons_of_mem c hd)
    simp [List.takeWhile_cons, hc, ih ha]

theorem mem_take_of_le_takeWhile {p : Char → Bool} :
    ∀ {s : List Char} {k : Nat}, k ≤ (s.takeWhile p).length →
      ∀ c ∈ s.take k, p c = true := by
  intro s
  induction s with
  | nil => intro k _ c hc; simp at hc
  | cons d s ih =>
    intro k hk c hc
    cases k with
    | zero => simp at hc
    | succ k =>
      by_cases hd : p d = true
      · rw [List.takeWhile_cons, if_pos hd] at hk
        simp only [List.length_cons, Nat.succ_le_succ_iff] at hk
        rw [List.take_succ_cons] at hc
        rcases List.mem_cons.mp hc with hcd | hcs
        · exact hcd ▸ hd
        · exact ih hk c hcs
      · rw [List.takeWhile_cons, if_neg hd] at hk
        simp at hk

theorem get_resource_ok_iff {t name : List Char} :
    get_resource t = Except.ok name ↔ searchCreated t = some name := by
  unfold get_resource
  cases h : searchCreated t <;> simp

theorem searchCreated_some_spec {t name : List Char} (h : searchCreated t = some name) :
    ∃ k, 1 ≤ k ∧ k ≤ firstLineLen t ∧ matchesAt t k = true ∧ name = t.take k := by
  unfold searchCreated at h
  cases hf : findGreedy t (firstLineLen t) with
  | none => rw [hf] at h; simp at h
  | some k =>
    rw [hf] at h
    injection h with h
    obtain ⟨h1, h2, h3⟩ := findGreedy_sound hf
    exact ⟨k, h1, h2, h3, h.symm⟩

/-- The Bool prefix test agrees with the prefix relation. -/
theorem isPrefixOf_eq_true {a b : List Char} : a.isPrefixOf b = true ↔ a <+: b :=
  List.isPrefixOf_iff_prefix

/-! ### Claim theorems -/

/-- C5: for the text "pod/my-job created" followed by a newline and the line
"some other line", `get_resource` returns exactly "pod/my-job": the trailing
line is ignored and no whitespace is part of the result. -/
theorem get_resource_pod_my_job :
    get_resource ("pod/my-job created\nsome other line".toList) =
      Except.ok ("pod/my-job".toList) := rfl

/-- C6: on the empty text and on the text "Error: already exists",
`get_resource` raises the one defined creation-not-confirmed error (the
message interpolating the captured text), not some other failure. -/
theorem get_resource_empty_and_already_exists :
    get_resource [] = Except.error (msgPrefix ++ ([] : List Char)) ∧
    get_resource ("Error: already exists".toList) =
      Except.error (msgPrefix ++ "Error: already exists".toList) :=
  ⟨rfl, rfl⟩

/-- C10: with two spaces between the name and "created", the greedy capture
cedes only one whitespace character: on "foo  created" the result is "foo "
with a trailing space, not "foo". -/
theorem get_resource_surplus_whitespace :
    get_resource ("foo  created".toList) = Except.ok ("foo ".toList) := rfl

/-- C7: `get_resource` (and the checkpoint copy) is a pure, deterministic
function of the captured text: evaluating it twice on the same input yields
the same outcome.  Purity itself is reflected by the embedding: both are
total functions of the text alone, with no other state. -/
theorem get_resource_deterministic :
    ∀ t : List Char, get_resource t = get_resource t ∧
      get_resource_ckpt t = get_resource_ckpt t :=
  fun _ => ⟨rfl, rfl⟩

/-- C1, counterexample: the text "x\nfoo-resource created" contains the line
"foo-resource created", yet `get_resource` raises instead of returning
"foo-resource", because the anchor matches only at the start of the text. -/
theorem get_resource_line_elsewhere_raises :
    "foo-resource created".toList ∈ linesOf ("x\nfoo-resource created".toList) ∧
    get_resource ("x\nfoo-resource created".toList) =
      Except.error (msgPrefix ++ "x\nfoo-resource created".toList) :=
  ⟨by decide, rfl⟩

/-- C2, counterexample: in "a\nx created\ny created" two distinct lines match
the pattern on their own, but `get_resource` raises rather than returning the
first matching line's capture: there are no multi-line search semantics. -/
theorem get_resource_no_multiline_cx :
    lineMatches ("x created".toList) = true ∧
    lineMatches ("y created".toList) = true ∧
    "x created".toList ∈ linesOf ("a\nx created\ny created".toList) ∧
    "y created".toList ∈ linesOf ("a\nx created\ny created".toList) ∧
    get_resource ("a\nx created\ny created".toList) =
      Except.error (msgPrefix ++ "a\nx created\ny created".toList) :=
  ⟨rfl, rfl, by decide, by decide, rfl⟩

/-- C3, counterexample: "foo createdxyz" has no line ending in "created",
yet `get_resource` returns "foo" instead of raising: the pattern does not
require "created" to end the line. -/
theorem get_resource_created_mid_line_cx :
    (∀ l ∈ linesOf ("foo createdxyz".toList), createdTok.isSuffixOf l = false) ∧
    get_resource ("foo createdxyz".toList) = Except.ok ("foo".toList) :=
  ⟨by decide, rfl⟩

/-- C3 (amended): whenever the token "created" does not occur in the text at
all — so the pattern cannot match — `get_resource` raises the single
creation-not-confirmed error, whose message is the fixed prefix followed by
the original captured text verbatim. -/
theorem get_resource_no_created_raises_verbatim (t : List Char)
    (h : ¬ createdTok <:+: t) :
    get_resource t = Except.error (msgPrefix ++ t) := by
  have hall : ∀ j, matchesAt t j = false := by
    intro j
    cases hd : t.drop j with
    | nil => exact matchesAt_eq_false_of_drop_nil hd
    | cons c r =>
      rw [matchesAt_eq_of_drop_cons hd]
      by_cases hpre : createdTok.isPrefixOf (r.dropWhile isPySpace) = true
      · exfalso
        have h1 : createdTok <+: r.dropWhile isPySpace := isPrefixOf_eq_true.mp hpre
        have h2 : r.dropWhile isPySpace <:+ r := List.dropWhile_suffix isPySpace
        have h3 : r <:+ c :: r := List.suffix_cons c r
        have h4 : c :: r <:+ t := hd ▸ List.drop_suffix j t
        have h5 : createdTok <:+: r.dropWhile isPySpace := List.IsPrefix.isInfix h1
        have h6 : r.dropWhile isPySpace <:+: t := List.IsSuffix.isInfix (h2.trans (h3.trans h4))
        exact h (h5.trans h6)
      · rw [Bool.eq_false_iff.mpr hpre, Bool.and_false]
  have hnone : searchCreated t = none := by
    unfold searchCreated
    rw [findGreedy_eq_none (fun j _ _ => hall j)]
    rfl
  unfold get_resource
  rw [hnone]

/-- C3, witness for the amended claim at a concrete input. -/
theorem get_resource_no_created_raises_verbatim_witness :
    get_resource ("Nothing to see here".toList) =
      Except.error (msgPrefix ++ "Nothing to see here".toList) :=
  get_resource_no_created_raises_verbatim ("Nothing to see here".toList) (by decide)

/-- C4: a successfully extracted name is non-empty, contains no newline, and
is exactly the text standing before the literal word "created" (separated
from it by a non-empty run of whitespace) at the start of the matched line —
the first line of the input, since the match is anchored there. -/
theorem get_resource_ok_shape (t name : List Char)
    (h : get_resource t = Except.ok name) :
    name ≠ [] ∧ (∀ c ∈ name, c ≠ '\n') ∧
      ∃ ws, ws ≠ [] ∧ (∀ c ∈ ws, isPySpace c = true) ∧
        (name ++ ws ++ createdTok) <+: t := by
  obtain ⟨k, hk1, hk2, hk3, hname⟩ := searchCreated_some_spec (get_resource_ok_iff.mp h)
  cases hd : t.drop k with
  | nil => rw [matchesAt_eq_false_of_drop_nil hd] at hk3; exact absurd hk3 (by simp)
  | cons c r =>
    rw [matchesAt_eq_of_drop_cons hd] at hk3
    rw [Bool.and_eq_true] at hk3
    obtain ⟨hc, hpre⟩ := hk3
    obtain ⟨z, hz⟩ := isPrefixOf_eq_true.mp hpre
    have hkt : k < t.length := by
      have hlen := congrArg List.length hd
      rw [List.length_drop] at hlen
      simp only [List.length_cons] at hlen
      omega
    have hnname : name ≠ [] := by
      rw [hname]
      intro hemp
      rcases List.take_eq_nil_iff.mp hemp with h0 | h0
      · omega
      · rw [h0] at hkt; simp at hkt
    have hnl : ∀ d ∈ name, d ≠ '\n' := by
      intro d hdm
      unfold firstLineLen at hk2
      have := mem_take_of_le_takeWhile hk2 d (hname ▸ hdm)
      exact of_decide_eq_true this
    refine ⟨hnname, hnl, c :: r.takeWhile isPySpace, by simp, ?_, ⟨z, ?_⟩⟩
    · intro d hdm
      rcases List.mem_cons.mp hdm with hdc | hdw
      · exact hdc ▸ hc
      · exact List.mem_takeWhile_imp hdw
    · have hr : r = r.takeWhile isPySpace ++ (createdTok ++ z) := by
        conv_lhs => rw [← List.takeWhile_append_dropWhile isPySpace r]
        rw [hz]
      have ht : t = name ++ (c :: (r.takeWhile isPySpace ++ (createdTok ++ z))) := by
        conv_lhs => rw [← List.take_append_drop k t]
        rw [hd, ← hname, ← hr]
      rw [ht]
      simp [List.append_assoc]

/-- C4, witness at a concrete input. -/
theorem get_resource_ok_shape_witness :
    get_resource ("ab created".toList) = Except.ok ("ab".toList) ∧
    ("ab".toList ≠ [] ∧ (∀ c ∈ "ab".toList, c ≠ '\n') ∧
      ∃ ws, ws ≠ [] ∧ (∀ c ∈ ws, isPySpace c = true) ∧
        ("ab".toList ++ ws ++ createdTok) <+: "ab created".toList) :=
  ⟨rfl, get_resource_ok_shape ("ab created".toList) ("ab".toList) rfl⟩

/-- C8: whenever `get_resource` succeeds, the returned name is a prefix of
the input text itself (the pattern is anchored at the very first character,
with no MULTILINE flag) and contains no newline character. -/
theorem get_resource_ok_prefix_no_newline (t name : List Char)
    (h : get_resource t = Except.ok name) :
    name <+: t ∧ '\n' ∉ name := by
  obtain ⟨k, hk1, hk2, hk3, hname⟩ := searchCreated_some_spec (get_resource_ok_iff.mp h)
  subst hname
  constructor
  · exact List.take_prefix k t
  · intro hmem
    unfold firstLineLen at hk2
    have := mem_take_of_le_takeWhile hk2 '\n' hmem
    simp at this

/-- C8, witness at a concrete input. -/
theorem get_resource_ok_prefix_no_newline_witness :
    get_resource ("cd created\nmore".toList) = Except.ok ("cd".toList) ∧
    ("cd".toList <+: "cd created\nmore".toList ∧ '\n' ∉ "cd".toList) :=
  ⟨rfl, get_resource_ok_prefix_no_newline ("cd created\nmore".toList) ("cd".toList) rfl⟩

/-- C9: the two copies of `get_resource` agree on every input up to the
error-message text: they return the same name or both raise, and on the
error path the checkpoint copy's message is the other's message followed by
". It may already exist.". -/
theorem get_resource_copies_equiv (t : List Char) :
    (get_resource t).toOption = (get_resource_ckpt t).toOption ∧
    ∀ e, get_resource t = Except.error e →
      get_resource_ckpt t = Except.error (e ++ alreadySuffix) := by
  cases h : searchCreated t with
  | some n =>
    constructor
    · simp [get_resource, get_resource_ckpt, h]
    · intro e he
      simp [get_resource, h] at he
  | none =>
    constructor
    · simp [get_resource, get_resource_ckpt, h, Except.toOption]
    · intro e he
      simp only [get_resource, h] at he
      injection he with he
      simp [get_resource_ckpt, h, ← he, List.append_assoc]

/-- C9, witness: the error-path relation at a concrete input. -/
theorem get_resource_copies_equiv_witness :
    get_resource_ckpt ("q".toList) =
      Except.error (msgPrefix ++ "q".toList ++ alreadySuffix) :=
  (get_resource_copies_equiv ("q".toList)).2 (msgPrefix ++ "q".toList) rfl

/-- If the text just after position `j` starts inside a block `a` of
non-whitespace characters, the `\s+created` tail cannot match at `j`. -/
theorem matchesAt_false_of_drop (s : List Char) (j : Nat) (a b : List Char) (i : Nat)
    (hdrop : s.drop j = a.drop i ++ b) (hi : i < a.length)
    (ha : ∀ c ∈ a, isPySpace c = false) : matchesAt s j = false := by
  cases hd : a.drop i with
  | nil =>
    have hlen := congrArg List.length hd
    rw [List.length_drop] at hlen
    simp at hlen
    omega
  | cons c r =>
    have hcm : c ∈ a := List.drop_subset i a (hd ▸ List.mem_cons_self c r)
    have hsc : s.drop j = c :: (r ++ b) := by rw [hdrop, hd]; rfl
    rw [matchesAt_eq_of_drop_cons hsc, ha c hcm, Bool.false_and]

/-- C1 (amended): for every text whose first line is exactly
"&lt;name&gt; created" (a non-empty newline-free name, one space, the token) and
whose remaining text, if any, does not begin — after the separating newline
and any further whitespace — with the token "created", `get_resource`
returns exactly that name. -/
theorem get_resource_first_line_created (name rest : List Char)
    (hne : name ≠ []) (hnl : ∀ c ∈ name, c ≠ '\n')
    (hrest : rest = [] ∨ ∃ r, rest = '\n' :: r)
    (hnc : createdTok.isPrefixOf (rest.dropWhile isPySpace) = false) :
    get_resource (name ++ (' ' :: (createdTok ++ rest))) = Except.ok name := by
  have hFLL : firstLineLen (name ++ (' ' :: (createdTok ++ rest))) = name.length + 8 := by
    unfold firstLineLen
    rw [takeWhile_append_all _ (fun c hc => decide_eq_true (hnl c hc)),
      List.takeWhile_cons, if_pos (by decide), takeWhile_append_all _ (by decide)]
    rcases hrest with h0 | ⟨r, h0⟩ <;> subst h0
    · simp [createdTok_cons]
    · rw [List.takeWhile_cons, if_neg (by simp)]
      simp [createdTok_cons]
  have hdropv : (name ++ (' ' :: (createdTok ++ rest))).drop name.length =
      ' ' :: (createdTok ++ rest) := List.drop_left name (' ' :: (createdTok ++ rest))
  have hmatch : matchesAt (name ++ (' ' :: (createdTok ++ rest))) name.length = true := by
    rw [matchesAt_eq_of_drop_cons hdropv]
    have hdw : (createdTok ++ rest).dropWhile isPySpace = createdTok ++ rest := by
      have hform : createdTok ++ rest =
          'c' :: ('r' :: 'e' :: 'a' :: 't' :: 'e' :: 'd' :: [] ++ rest) := by
        rw [createdTok_cons]
        rfl
      rw [hform, List.dropWhile_cons, if_neg (by decide)]
    have h2 : createdTok.isPrefixOf (createdTok ++ rest) = true :=
      isPrefixOf_eq_true.mpr (List.prefix_append createdTok rest)
    rw [hdw, h2, Bool.and_true]
    rfl
  have hnomatch : ∀ j, name.length < j → j ≤ name.length + 8 →
      matchesAt (name ++ (' ' :: (createdTok ++ rest))) j = false := by
    intro j hj1 hj2
    obtain ⟨i, hi7, hij⟩ : ∃ i, i ≤ 7 ∧ j = name.length + (i + 1) :=
      ⟨j - name.length - 1, by omega, by omega⟩
    subst hij
    have hdrop : (name ++ (' ' :: (createdTok ++ rest))).drop (name.length + (i + 1)) =
        (createdTok ++ rest).drop i := by
      rw [List.drop_append, List.drop_succ_cons]
    interval_cases i
    · exact matchesAt_false_of_drop _ _ createdTok rest 0 (by rw [hdrop]; rfl) (by decide) (by decide)
    · exact matchesAt_false_of_drop _ _ createdTok rest 1 (by rw [hdrop]; rfl) (by decide) (by decide)
    · exact matchesAt_false_of_drop _ _ createdTok rest 2 (by rw [hdrop]; rfl) (by decide) (by decide)
    · exact matchesAt_false_of_drop _ _ createdTok rest 3 (by rw [hdrop]; rfl) (by decide) (by decide)
    · exact matchesAt_false_of_drop _ _ createdTok rest 4 (by rw [hdrop]; rfl) (by decide) (by decide)
    · exact matchesAt_false_of_drop _ _ createdTok rest 5 (by rw [hdrop]; rfl) (by decide) (by decide)
    · exact matchesAt_false_of_drop _ _ createdTok rest 6 (by rw [hdrop]; rfl) (by decide) (by decide)
    · have h7 : (name ++ (' ' :: (createdTok ++ rest))).drop (name.length + (7 + 1)) = rest := by
        rw [hdrop]
        rfl
      rcases hrest with h0 | ⟨r, h0⟩ <;> subst h0
      · exact matchesAt_eq_false_of_drop_nil h7
      · rw [matchesAt_eq_of_drop_cons h7,
          show isPySpace '\n' = true from rfl, Bool.true_and]
        rwa [List.dropWhile_cons, if_pos (show isPySpace '\n' = true from rfl)] at hnc
  have hpos : 1 ≤ name.length := List.length_pos.mpr hne
  have hsome : searchCreated (name ++ (' ' :: (createdTok ++ rest))) = some name := by
    unfold searchCreated
    rw [hFLL, findGreedy_eq_some hpos (by omega) hmatch hnomatch]
    show some ((name ++ (' ' :: (createdTok ++ rest))).take name.length) = some name
    rw [List.take_left name (' ' :: (createdTok ++ rest))]
  unfold get_resource
  rw [hsome]

/-- C1, witness for the amended claim: a text whose first line is
"foo-resource created", followed by another line, yields "foo-resource". -/
theorem get_resource_first_line_created_witness :
    get_resource ("foo-resource".toList ++ (' ' :: (createdTok ++ '\n' :: "x".toList))) =
      Except.ok ("foo-resource".toList) :=
  get_resource_first_line_created ("foo-resource".toList) ('\n' :: "x".toList)
    (by decide) (by decide) (Or.inr ⟨"x".toList, rfl⟩) (by decide)

/-- C2 (amended): the anchor applies to the start of the whole text only
(single-line semantics, no MULTILINE flag): when the first line contains no
whitespace character at all — so no match can start at the anchor — and the
rest of the text does not begin, after whitespace, with "created",
`get_resource` raises, no matter whether later lines match the pattern on
their own. -/
theorem get_resource_anchor_start_only (pre t : List Char)
    (_hne : pre ≠ []) (hws : ∀ c ∈ pre, isPySpace c = false)
    (hnc : createdTok.isPrefixOf (t.dropWhile isPySpace) = false) :
    get_resource (pre ++ '\n' :: t) = Except.error (msgPrefix ++ (pre ++ '\n' :: t)) := by
  have hnl : ∀ c ∈ pre, decide (c ≠ '\n') = true := by
    intro c hc
    apply decide_eq_true
    intro heq
    rw [heq] at hc
    exact absurd (hws '\n' hc) (by decide)
  have hFLL : firstLineLen (pre ++ '\n' :: t) = pre.length := by
    unfold firstLineLen
    rw [takeWhile_append_all _ hnl, List.takeWhile_cons, if_neg (by simp)]
    simp
  have hnomatch : ∀ j, 1 ≤ j → j ≤ pre.length →
      matchesAt (pre ++ '\n' :: t) j = false := by
    intro j h1 h2
    rcases Nat.lt_or_ge j pre.length with hlt | hge
    · have hdrop : (pre ++ '\n' :: t).drop j = pre.drop j ++ '\n' :: t := by
        rw [List.drop_append_eq_append_drop, show j - pre.length = 0 by omega, List.drop_zero]
      exact matchesAt_false_of_drop _ _ pre ('\n' :: t) j hdrop hlt hws
    · have hj : j = pre.length := by omega
      subst hj
      rw [matchesAt_eq_of_drop_cons (List.drop_left pre ('\n' :: t)),
        show isPySpace '\n' = true from rfl, Bool.true_and]
      exact hnc
  have hnone : searchCreated (pre ++ '\n' :: t) = none := by
    unfold searchCreated
    rw [hFLL, findGreedy_eq_none hnomatch]
    rfl
  unfold get_resource
  rw [hnone]

/-- C2, witness for the amended claim: the second line "x created" matches
the pattern on its own, yet the whole text raises. -/
theorem get_resource_anchor_start_only_witness :
    lineMatches ("x created".toList) = true ∧
    get_resource ("abc".toList ++ '\n' :: "x created".toList) =
      Except.error (msgPrefix ++ ("abc".toList ++ '\n' :: "x created".toList)) :=
  ⟨rfl, get_resource_anchor_start_only ("abc".toList) ("x created".toList)
    (by decide) (by decide) (by decide)⟩
